import Mathlib

/-!
# Verification of the dhstore storage engine specification

This file shallowly embeds the core of the `ipni/dhstore` storage engine:
the typed key schema (`key.go`), the multihash validation performed by the
store facade (`pebble/pebble.go`), the value-keys merge operator
(`valueKeysValueMerger`), the section-framing codec used to serialize sets
of encrypted value keys, and the batched store operations `MergeIndexes`,
`DeleteIndexes` and `Lookup` over an abstract LSM backend state.

Bytes are modelled as `List Nat` (each entry standing for one byte; the
byte range only matters where bytes are interpreted numerically, namely in
the varint codec, whose encoder only produces values below 256).
-/

namespace Dhstore

/-- Structural worker for the varint encoder. The fuel argument only
serves termination: the encoded value shrinks by a factor of 128 per
emitted byte, so fuel `n + 1` (as supplied by `toUvarint`) never runs
out. -/
def toUvarintGo : Nat → Nat → List Nat
  | 0, _ => []
  | fuel + 1, n =>
    if n < 0x80 then [n]
    else (n % 0x80 + 0x80) :: toUvarintGo fuel (n / 0x80)

/-- Unsigned varint encoder, as in the standard minimal little-endian
7-bit-group encoding used by the framing codec and the multihash header
(Go `binary.PutUvarint`): while the value is at least 0x80, emit the low
seven bits with the continuation bit set, then emit the final group. -/
def toUvarint (n : Nat) : List Nat := toUvarintGo (n + 1) n

/-- Unsigned varint decoder (Go `varint.FromUvarint` from
`multiformats/go-varint`, minus its nine-byte overflow cap, which no input
considered here can reach): accumulates 7-bit groups at shift `s` onto `x`;
returns the decoded value and the number of bytes consumed, or `none` on a
non-minimal encoding (a final zero group at positive shift) or a truncated
buffer. -/
def fromUvarint : List Nat → Nat → Nat → Option (Nat × Nat)
  | [], _, _ => none
  | b :: rest, s, x =>
    if b < 0x80 then
      if b = 0 ∧ 0 < s then none
      else some (x + b * 2 ^ s, 1)
    else
      match fromUvarint rest (s + 7) (x + b % 0x80 * 2 ^ s) with
      | none => none
      | some (v, c) => some (v, c + 1)

/-- Modelled from the spec: the section-framing write primitive
(`sectionBuffer.writeSection`, whose implementation file is not part of the
provided sources). Per §4.2 a byte slice is framed as
`varint(len) ‖ bytes`. -/
def writeSection (evk : List Nat) : List Nat :=
  toUvarint evk.length ++ evk

/-- `PebbleDHStore.marshalEncryptedIndexKeys` (`pebble/pebble.go`): a
sequence of encrypted value keys serialized as concatenated sections. -/
def marshalEncryptedIndexKeys : List (List Nat) → List Nat
  | [] => []
  | evk :: rest => writeSection evk ++ marshalEncryptedIndexKeys rest

/-- `PebbleDHStore.marshalEncryptedIndexKey` (`pebble/pebble.go`): a single
encrypted value key serialized as one section. -/
def marshalEncryptedIndexKey (evk : List Nat) : List Nat :=
  marshalEncryptedIndexKeys [evk]

/-- Modelled from the spec: the section-framing read primitive
(`sectionBuffer.copyNextSection`, implementation file not in the provided
sources). Reads one `varint(len) ‖ bytes` section off the front of the
buffer, returning the section and the remaining bytes; fails on a varint
decode error or when fewer than `len` bytes remain (premature
end-of-buffer). -/
def copyNextSection (b : List Nat) : Option (List Nat × List Nat) :=
  match fromUvarint b 0 0 with
  | none => none
  | some (len, c) =>
    let rest := b.drop c
    if rest.length < len then none
    else some (rest.take len, rest.drop len)

/-- The loop of `PebbleDHStore.unmarshalEncryptedIndexKeys`
(`pebble/pebble.go`): read sections until the buffer is exhausted. The
fuel argument only serves termination; one byte is consumed per section,
so fuel equal to the buffer length (as supplied by
`unmarshalEncryptedIndexKeys`) never runs out. -/
def unmarshalGo : Nat → List Nat → Option (List (List Nat))
  | _, [] => some []
  | 0, _ :: _ => none
  | fuel + 1, b :: rest =>
    match copyNextSection (b :: rest) with
    | none => none
    | some (sec, remaining) =>
      match unmarshalGo fuel remaining with
      | none => none
      | some evks => some (sec :: evks)

/-- `PebbleDHStore.unmarshalEncryptedIndexKeys` (`pebble/pebble.go`):
decodes a stored value-keys value into the list of encrypted value keys;
the empty input decodes to the empty list. -/
def unmarshalEncryptedIndexKeys (b : List Nat) : Option (List (List Nat)) :=
  unmarshalGo b.length b

/-- `unknownKeyPrefix` in `key.go`: first value of the `iota` block. (The
source constant names end in the word "Prefix"; they are rendered here
with a "Tag" suffix.) -/
def unknownKeyTag : Nat := 0

/-- `multihashKeyPrefix` in `key.go`: second value of the `iota` block. -/
def multihashKeyTag : Nat := 1

/-- `hashedValueKeyKeyPrefix` in `key.go`: third value of the `iota`
block. -/
def hashedValueKeyKeyTag : Nat := 2

/-- `blake3Keyer.multihashKey` (`key.go`): the database key of a multihash
is the multihash tag byte followed by the raw multihash bytes. -/
def multihashKey (mh : List Nat) : List Nat :=
  multihashKeyTag :: mh

/-- `blake3Keyer.hashedValueKeyKey` (`key.go`): the database key of a
hashed value key is the tag byte followed by the BLAKE3 digest of the
supplied bytes (`hasher.Sum` appends the digest to the one-byte tag). The
digest function is a parameter of the embedding; the keyer is constructed
with digest length 32 (`blake3DigestLength`). -/
def hashedValueKeyKey (blake3Sum : List Nat → List Nat) (hvk : List Nat) : List Nat :=
  hashedValueKeyKeyTag :: blake3Sum hvk

/-- Multihash decode errors (`go-multihash`): truncated input, varint
failure, or a length header inconsistent with the buffer. -/
inductive MhErr where
  | tooShort
  | varintErr
  | inconsistentLen
deriving DecidableEq

/-- Decoded multihash (`multihash.DecodedMultihash`), keeping the fields
the store inspects: the multicodec code and the digest bytes. -/
structure DecodedMultihash where
  code : Nat
  digest : List Nat
deriving DecidableEq

/-- `multihash.Decode` (external `go-multihash` collaborator): a multihash
is `uvarint(code) ‖ uvarint(length) ‖ digest`; the buffer must be at least
two bytes, the digest must be at least `length` bytes, and the total
consumed length must equal the buffer length. No check relates the digest
length to the code. -/
def decodeMultihash (buf : List Nat) : Except MhErr DecodedMultihash :=
  if buf.length < 2 then .error .tooShort
  else
    match fromUvarint buf 0 0 with
    | none => .error .varintErr
    | some (code, c1) =>
      match fromUvarint (buf.drop c1) 0 0 with
      | none => .error .varintErr
      | some (length, c2) =>
        let rest := (buf.drop c1).drop c2
        if rest.length < length then .error .tooShort
        else if buf.length ≠ c1 + c2 + length then .error .inconsistentLen
        else .ok ⟨code, rest.take length⟩

/-- `multicodec.DblSha2_256` / `multihash.DBL_SHA2_256`: the only
multicodec code the store accepts. -/
def dblSha2_256 : Nat := 0x56

/-- Validation outcome used by `MergeIndexes`, `DeleteIndexes` and
`Lookup`: `true` iff the bytes decode as a multihash whose code is
`DBL_SHA2_256`. -/
def isValidDblMultihash (mh : List Nat) : Bool :=
  match decodeMultihash mh with
  | .error _ => false
  | .ok dmh => dmh.code == dblSha2_256

/-- `valueKeysValueMerger` state (`valueKeysMerger` source file): the
accumulated encrypted value keys and the `reverse` direction flag. The
`marshalledSizeHint` field only tunes buffer growth and is omitted. -/
structure VKMerger where
  merges : List (List Nat)
  reverse : Bool
deriving DecidableEq

/-- `valueKeysValueMerger.exists`: linear membership scan by bytewise
equality over the accumulated keys. -/
def existsIn (merges : List (List Nat)) (value : List Nat) : Bool :=
  merges.any (fun x => x == value)

/-- `valueKeysValueMerger.MergeNewer`: an empty payload is ignored; the
payload is decoded as a list of encrypted value keys; if nothing is
accumulated yet the batch is appended wholesale, otherwise each incoming
key is appended iff not already present. -/
def mergeNewer (st : VKMerger) (value : List Nat) : Except Unit VKMerger :=
  if value = [] then .ok st
  else
    match unmarshalEncryptedIndexKeys value with
    | none => .error ()
    | some evks =>
      if st.merges = [] then .ok { st with merges := st.merges ++ evks }
      else
        let folded := evks.foldl
          (fun acc evk => bif existsIn acc evk then acc else acc ++ [evk]) st.merges
        .ok { st with merges := folded }

/-- `valueKeysValueMerger.MergeOlder`: sets the `reverse` flag, then
accumulates exactly as `MergeNewer`. -/
def mergeOlder (st : VKMerger) (value : List Nat) : Except Unit VKMerger :=
  mergeNewer { st with reverse := true } value

/-- `valueKeysValueMerger.Finish`: empty accumulation emits empty bytes;
otherwise the accumulated sequence, reversed when the `reverse` flag is
set, is marshalled as concatenated sections. -/
def finish (st : VKMerger) : List Nat :=
  if st.merges = [] then []
  else marshalEncryptedIndexKeys (if st.reverse then st.merges.reverse else st.merges)

/-- `valueKeysValueMerger.DeletableFinish`: emits the `Finish` bytes
together with the deletion flag, which is set iff the emitted bytes are
empty. -/
def deletableFinish (st : VKMerger) : List Nat × Bool :=
  let b := finish st
  (b, b.isEmpty)

/-- Sequencing of `MergeOlder` calls over a list of payloads, as performed
by the backend when it walks older entries of a key. -/
def mergeOlderAll : VKMerger → List (List Nat) → Except Unit VKMerger
  | st, [] => .ok st
  | st, v :: rest =>
    match mergeOlder st v with
    | .error e => .error e
    | .ok st' => mergeOlderAll st' rest

/-- One merger invocation step: the backend supplies payloads through
either `MergeNewer` (`false`) or `MergeOlder` (`true`). -/
def runMergerCalls : VKMerger → List (Bool × List Nat) → Except Unit VKMerger
  | st, [] => .ok st
  | st, (older, v) :: rest =>
    match (bif older then mergeOlder st v else mergeNewer st v) with
    | .error e => .error e
    | .ok st' => runMergerCalls st' rest

/-- State of one backend key: an optional plain (set) value plus the merge
operands stacked on top of it, oldest first. A key holding a plain value
has no pending operands; a key written only by merges has no base. -/
structure Cell where
  base : Option (List Nat)
  ops : List (List Nat)
deriving DecidableEq

/-- The LSM backend state: a map from database keys to cells. -/
def DB : Type := List Nat → Option Cell

/-- The empty backend state. -/
def emptyDB : DB := fun _ => none

/-- The backend's merge resolution for one key, as performed on a point
read: the merger is instantiated with the newest operand
(`newValueKeysMerger`'s `Merge` hook calls `MergeNewer` on it), the
remaining operands are fed newest-to-oldest through `MergeOlder`, the
plain base value (if any) is fed last, and `Finish` emits the bytes. -/
def materializeMerge (base : Option (List Nat)) (ops : List (List Nat)) :
    Except Unit (List Nat) :=
  match ops.reverse with
  | [] => .ok (match base with | some b => b | none => [])
  | newest :: olders =>
    match mergeNewer { merges := [], reverse := false } newest with
    | .error e => .error e
    | .ok st =>
      match mergeOlderAll st olders with
      | .error e => .error e
      | .ok st' =>
        match (match base with
               | some b => mergeOlder st' b
               | none => .ok st') with
        | .error e => .error e
        | .ok st'' => .ok (finish st'')

/-- Backend point read (`db.Get`): absent key reads as absent; a key with
pending merge operands is materialized through the merge operator. -/
def dbGet (db : DB) (k : List Nat) : Except Unit (Option (List Nat)) :=
  match db k with
  | none => .ok none
  | some c =>
    match c.ops with
    | [] => .ok c.base
    | _ :: _ =>
      match materializeMerge c.base c.ops with
      | .error e => .error e
      | .ok b => .ok (some b)

/-- A batched backend write: merge, absolute set, or delete. -/
inductive BatchOp where
  | mergeOp : List Nat → List Nat → BatchOp
  | setOp : List Nat → List Nat → BatchOp
  | delOp : List Nat → BatchOp
deriving DecidableEq

/-- Application of one committed batch operation: a merge stacks its
operand onto the key's cell; a set installs a plain value, shadowing any
pending operands; a delete removes the key. -/
def applyOp (db : DB) : BatchOp → DB
  | .mergeOp k v => fun k' =>
      if k' = k then
        some (match db k with
              | none => { base := none, ops := [v] }
              | some c => { base := c.base, ops := c.ops ++ [v] })
      else db k'
  | .setOp k v => fun k' => if k' = k then some { base := some v, ops := [] } else db k'
  | .delOp k => fun k' => if k' = k then none else db k'

/-- Commit of a batch: its operations apply in submission order. -/
def applyOps (db : DB) (ops : List BatchOp) : DB :=
  ops.foldl applyOp db

/-- Errors surfaced by the store operations: multihash decode failure
(`ErrMultihashDecode`), unsupported multicodec
(`ErrUnsupportedMulticodecCode`), and failure to decode a stored
value-keys value. -/
inductive DHError where
  | multihashDecode
  | unsupportedMulticodecCode
  | valueDecode
deriving DecidableEq

/-- Bytewise lexicographic comparison (`bytes.Compare`). -/
def lexCompareBytes : List Nat → List Nat → Ordering
  | [], [] => .eq
  | [], _ :: _ => .lt
  | _ :: _, [] => .gt
  | a :: as, b :: bs =>
    if a < b then .lt
    else if b < a then .gt
    else lexCompareBytes as bs

/-- Insertion step of the key sort: an index is placed before the first
entry whose key is not smaller. Equal keys keep their submission order
(Go's `slices.SortFunc` does not promise stability; the model fixes the
stable order). -/
def insertByKey (x : List Nat × List Nat) :
    List (List Nat × List Nat) → List (List Nat × List Nat)
  | [] => [x]
  | y :: ys =>
    match lexCompareBytes x.1 y.1 with
    | .gt => y :: insertByKey x ys
    | _ => x :: y :: ys

/-- The sort by multihash bytes performed at the top of `MergeIndexes` and
`DeleteIndexes` to reduce cursor churn. -/
def sortByKey : List (List Nat × List Nat) → List (List Nat × List Nat)
  | [] => []
  | x :: xs => insertByKey x (sortByKey xs)

/-- Loop body of `PebbleDHStore.MergeIndexes`: each index is validated
(decode, then the `DBL_SHA2_256` code check); on success a merge of the
single-key section framing of the value is added to the batch. The first
validation error aborts the whole call. -/
def mergeIndexesLoop : List (List Nat × List Nat) → List BatchOp →
    Except DHError (List BatchOp)
  | [], ops => .ok ops
  | (mh, value) :: rest, ops =>
    match decodeMultihash mh with
    | .error _ => .error .multihashDecode
    | .ok dmh =>
      if dmh.code ≠ dblSha2_256 then .error .unsupportedMulticodecCode
      else mergeIndexesLoop rest
        (ops ++ [.mergeOp (multihashKey mh) (marshalEncryptedIndexKey value)])

/-- `PebbleDHStore.MergeIndexes`: sort the indexes by multihash, build the
batch, and commit it; on error nothing is committed. -/
def mergeIndexes (db : DB) (indexes : List (List Nat × List Nat)) :
    Except DHError DB :=
  match mergeIndexesLoop (sortByKey indexes) [] with
  | .error e => .error e
  | .ok ops => .ok (applyOps db ops)

/-- Order-preserving removal of the first bytewise-equal encrypted value
key, with a flag reporting whether anything was removed (the removal loop
inside `DeleteIndexes`). -/
def removeFirstEvk : List (List Nat) → List Nat → List (List Nat) × Bool
  | [], _ => ([], false)
  | x :: xs, v =>
    if x = v then (xs, true)
    else
      match removeFirstEvk xs v with
      | (r, removed) => (x :: r, removed)

/-- Loop body of `PebbleDHStore.DeleteIndexes`: validate, point-read the
current value-keys value from the committed state (not from the pending
batch), skip absent keys, decode, remove the first equal key; if the set
empties, enqueue a delete, if nothing was removed skip, otherwise enqueue
an absolute set of the re-encoded remainder. -/
def deleteIndexesLoop (db : DB) : List (List Nat × List Nat) → List BatchOp →
    Except DHError (List BatchOp)
  | [], ops => .ok ops
  | (mh, value) :: rest, ops =>
    match decodeMultihash mh with
    | .error _ => .error .multihashDecode
    | .ok dmh =>
      if dmh.code ≠ dblSha2_256 then .error .unsupportedMulticodecCode
      else
        match dbGet db (multihashKey mh) with
        | .error _ => .error .valueDecode
        | .ok none => deleteIndexesLoop db rest ops
        | .ok (some vkb) =>
          match unmarshalEncryptedIndexKeys vkb with
          | none => .error .valueDecode
          | some encValueKeys =>
            match removeFirstEvk encValueKeys value with
            | (remaining, removed) =>
              if remaining = [] then
                deleteIndexesLoop db rest (ops ++ [.delOp (multihashKey mh)])
              else bif removed then
                deleteIndexesLoop db rest
                  (ops ++ [.setOp (multihashKey mh) (marshalEncryptedIndexKeys remaining)])
              else deleteIndexesLoop db rest ops

/-- `PebbleDHStore.DeleteIndexes`: sort, build the batch against the
committed state, commit. -/
def deleteIndexes (db : DB) (indexes : List (List Nat × List Nat)) :
    Except DHError DB :=
  match deleteIndexesLoop db (sortByKey indexes) [] with
  | .error e => .error e
  | .ok ops => .ok (applyOps db ops)

/-- `PebbleDHStore.Lookup`: validate the multihash, point-read the
value-keys value, return the empty list when absent, otherwise decode the
stored sections. -/
def lookup (db : DB) (mh : List Nat) : Except DHError (List (List Nat)) :=
  match decodeMultihash mh with
  | .error _ => .error .multihashDecode
  | .ok dmh =>
    if dmh.code ≠ dblSha2_256 then .error .unsupportedMulticodecCode
    else
      match dbGet db (multihashKey mh) with
      | .error _ => .error .valueDecode
      | .ok none => .ok []
      | .ok (some vkb) =>
        match unmarshalEncryptedIndexKeys vkb with
        | none => .error .valueDecode
        | some evks => .ok evks

/-- A sequence of single-pair `MergeIndexes` calls, one per encrypted
value key, in order. -/
def mergeEach (db : DB) (mh : List Nat) : List (List Nat) → Except DHError DB
  | [] => .ok db
  | v :: vs =>
    match mergeIndexes db [(mh, v)] with
    | .error e => .error e
    | .ok db' => mergeEach db' mh vs

/-- Binary combination of two value-keys payloads in oldest-first
direction: the merger is seeded with the older payload and the newer one
is supplied through `MergeNewer`. -/
def combineOldestFirst (older newer : List Nat) : Except Unit (List Nat) :=
  match mergeNewer { merges := [], reverse := false } older with
  | .error e => .error e
  | .ok st =>
    match mergeNewer st newer with
    | .error e => .error e
    | .ok st' => .ok (finish st')

/-- Binary combination of two value-keys payloads in newest-first
direction, as on the backend's read path: the merger is seeded with the
newer payload and the older one is supplied through `MergeOlder`. -/
def combineNewestFirst (older newer : List Nat) : Except Unit (List Nat) :=
  match mergeNewer { merges := [], reverse := false } newer with
  | .error e => .error e
  | .ok st =>
    match mergeOlder st older with
    | .error e => .error e
    | .ok st' => .ok (finish st')

/-- A backend state holding a single key with a plain value. -/
def singlePlainDB (k v : List Nat) : DB :=
  fun k' => if k' = k then some { base := some v, ops := [] } else none

/-- A sample well-formed `DBL_SHA2_256` multihash: code `0x56`, digest
length 32, digest of 32 zero bytes. -/
def sampleDblMh : List Nat := 86 :: 32 :: List.replicate 32 0

section Lemmas

theorem toUvarintGo_fuel (n : Nat) :
    ∀ f, n + 1 ≤ f → toUvarintGo f n = toUvarintGo (n + 1) n := by
  induction n using Nat.strong_induction_on with
  | _ n ih =>
    intro f hf
    match f, hf with
    | f + 1, _ =>
      simp only [toUvarintGo]
      by_cases h : n < 0x80
      · simp [h]
      · rw [if_neg h, if_neg h]
        have hdiv : n / 0x80 < n := Nat.div_lt_self (by omega) (by omega)
        rw [ih (n / 0x80) hdiv f (by omega), ih (n / 0x80) hdiv n (by omega)]

theorem toUvarint_eq (n : Nat) :
    toUvarint n = if n < 0x80 then [n]
      else (n % 0x80 + 0x80) :: toUvarint (n / 0x80) := by
  unfold toUvarint
  by_cases h : n < 0x80
  · simp [toUvarintGo, h]
  · simp only [toUvarintGo, if_neg h]
    have hdiv : n / 0x80 < n := Nat.div_lt_self (by omega) (by omega)
    rw [toUvarintGo_fuel (n / 0x80) n (by omega)]
    simp only [toUvarintGo]

theorem toUvarint_ne_nil (n : Nat) : toUvarint n ≠ [] := by
  rw [toUvarint_eq]
  split <;> simp

theorem fromUvarint_toUvarint (n : Nat) :
    ∀ (s x : Nat), s = 0 ∨ 0 < n → ∀ rest : List Nat,
      fromUvarint (toUvarint n ++ rest) s x =
        some (x + n * 2 ^ s, (toUvarint n).length) := by
  induction n using Nat.strong_induction_on with
  | _ n ih =>
    intro s x hs rest
    by_cases h : n < 0x80
    · rw [toUvarint_eq, if_pos h]
      simp only [List.cons_append, List.nil_append, fromUvarint, if_pos h,
        List.length_cons, List.length_nil]
      rw [if_neg]
      omega
    · rw [toUvarint_eq, if_neg h]
      simp only [List.cons_append, fromUvarint, List.length_cons, List.append_eq]
      rw [if_neg (by omega)]
      have hdiv : n / 0x80 < n := Nat.div_lt_self (by omega) (by omega)
      rw [ih (n / 0x80) hdiv (s + 7) (x + (n % 0x80 + 0x80) % 0x80 * 2 ^ s)
        (Or.inr (by omega)) rest]
      have hmod : (n % 0x80 + 0x80) % 0x80 = n % 0x80 := by omega
      have harith : x + (n % 0x80 + 0x80) % 0x80 * 2 ^ s + n / 0x80 * 2 ^ (s + 7) =
          x + n * 2 ^ s := by
        rw [hmod, pow_add, add_assoc]
        congr 1
        calc n % 0x80 * 2 ^ s + n / 0x80 * (2 ^ s * 2 ^ 7)
            = (n % 0x80 + 2 ^ 7 * (n / 0x80)) * 2 ^ s := by ring
          _ = n * 2 ^ s := by
              rw [show (2 : Nat) ^ 7 = 0x80 from rfl, Nat.mod_add_div]
      rw [harith]

theorem fromUvarint_toUvarint0 (n : Nat) (rest : List Nat) :
    fromUvarint (toUvarint n ++ rest) 0 0 = some (n, (toUvarint n).length) := by
  have := fromUvarint_toUvarint n 0 0 (Or.inl rfl) rest
  simpa using this

theorem writeSection_ne_nil (e : List Nat) : writeSection e ≠ [] := by
  unfold writeSection
  intro h
  exact toUvarint_ne_nil e.length (List.append_eq_nil.mp h).1

theorem copyNextSection_writeSection (e rest : List Nat) :
    copyNextSection (writeSection e ++ rest) = some (e, rest) := by
  unfold copyNextSection writeSection
  rw [List.append_assoc, fromUvarint_toUvarint0]
  simp only [List.drop_left, List.take_left, List.length_append]
  rw [if_neg (by omega)]

theorem marshal_length_ge (evks : List (List Nat)) :
    evks.length ≤ (marshalEncryptedIndexKeys evks).length := by
  induction evks with
  | nil => simp [marshalEncryptedIndexKeys]
  | cons e rest ih =>
    simp only [marshalEncryptedIndexKeys, List.length_append, List.length_cons]
    have h1 : 1 ≤ (writeSection e).length := by
      cases hw : writeSection e with
      | nil => exact absurd hw (writeSection_ne_nil e)
      | cons a l => simp
    omega

theorem unmarshalGo_marshal (evks : List (List Nat)) :
    ∀ fuel, evks.length ≤ fuel →
      unmarshalGo fuel (marshalEncryptedIndexKeys evks) = some evks := by
  induction evks with
  | nil => intro fuel _; cases fuel <;> rfl
  | cons e rest ih =>
    intro fuel hfuel
    cases fuel with
    | zero => simp at hfuel
    | succ f =>
      have hne : marshalEncryptedIndexKeys (e :: rest) ≠ [] := by
        simp only [marshalEncryptedIndexKeys]
        intro h
        exact writeSection_ne_nil e (List.append_eq_nil.mp h).1
      cases hm : marshalEncryptedIndexKeys (e :: rest) with
      | nil => exact absurd hm hne
      | cons b bs =>
        have hcopy : copyNextSection (b :: bs) =
            some (e, marshalEncryptedIndexKeys rest) := by
          rw [← hm]
          simpa only [marshalEncryptedIndexKeys] using
            copyNextSection_writeSection e (marshalEncryptedIndexKeys rest)
        simp only [unmarshalGo, hcopy]
        rw [ih f (by simpa using hfuel)]

theorem unmarshal_marshal (evks : List (List Nat)) :
    unmarshalEncryptedIndexKeys (marshalEncryptedIndexKeys evks) = some evks := by
  unfold unmarshalEncryptedIndexKeys
  exact unmarshalGo_marshal evks _ (marshal_length_ge evks)

theorem marshal_eq_nil_iff (evks : List (List Nat)) :
    marshalEncryptedIndexKeys evks = [] ↔ evks = [] := by
  cases evks with
  | nil => simp [marshalEncryptedIndexKeys]
  | cons e rest =>
    simp only [marshalEncryptedIndexKeys]
    constructor
    · intro h
      exact absurd (List.append_eq_nil.mp h).1 (writeSection_ne_nil e)
    · intro h
      exact absurd h (by simp)

theorem existsIn_eq_true_iff (ms : List (List Nat)) (v : List Nat) :
    existsIn ms v = true ↔ v ∈ ms := by
  simp [existsIn]

theorem existsIn_eq_false_iff (ms : List (List Nat)) (v : List Nat) :
    existsIn ms v = false ↔ v ∉ ms := by
  rw [← Bool.not_eq_true, not_iff_not]
  exact existsIn_eq_true_iff ms v

theorem foldl_dedupAppend (es : List (List Nat)) :
    ∀ acc : List (List Nat), (∀ e ∈ es, e ∉ acc) → es.Nodup →
      es.foldl (fun acc evk => bif existsIn acc evk then acc else acc ++ [evk]) acc =
        acc ++ es := by
  induction es with
  | nil => intro acc _ _; simp
  | cons e rest ih =>
    intro acc hdisj hnd
    have he : existsIn acc e = false :=
      (existsIn_eq_false_iff acc e).mpr (hdisj e (by simp))
    simp only [List.foldl_cons, he, cond_false]
    rw [ih (acc ++ [e])]
    · simp
    · intro e' he'
      simp only [List.mem_append, List.mem_singleton]
      push_neg
      refine ⟨hdisj e' (by simp [he']), ?_⟩
      intro hcontra
      exact (List.nodup_cons.mp hnd).1 (hcontra ▸ he')
    · exact (List.nodup_cons.mp hnd).2

theorem mergeNewer_wholesale (r : Bool) (es : List (List Nat)) (hne : es ≠ []) :
    mergeNewer ⟨[], r⟩ (marshalEncryptedIndexKeys es) = .ok ⟨es, r⟩ := by
  unfold mergeNewer
  rw [if_neg (fun hcontra => hne ((marshal_eq_nil_iff es).mp hcontra))]
  rw [unmarshal_marshal]
  simp

theorem mergeNewer_append (st : VKMerger) (es : List (List Nat)) (hm : st.merges ≠ [])
    (hdisj : ∀ e ∈ es, e ∉ st.merges) (hnd : es.Nodup) (hne : es ≠ []) :
    mergeNewer st (marshalEncryptedIndexKeys es) = .ok ⟨st.merges ++ es, st.reverse⟩ := by
  unfold mergeNewer
  rw [if_neg (fun hcontra => hne ((marshal_eq_nil_iff es).mp hcontra))]
  simp only [unmarshal_marshal, if_neg hm]
  simp only [foldl_dedupAppend es st.merges hdisj hnd]

theorem mergeNewer_single (st : VKMerger) (e : List Nat) (h : e ∉ st.merges) :
    mergeNewer st (marshalEncryptedIndexKey e) = .ok ⟨st.merges ++ [e], st.reverse⟩ := by
  by_cases hm : st.merges = []
  · unfold marshalEncryptedIndexKey
    rw [show st = ⟨[], st.reverse⟩ by cases st; simp_all]
    simpa using mergeNewer_wholesale st.reverse [e] (by simp)
  · exact mergeNewer_append st [e] hm (by simpa using h) (by simp) (by simp)

theorem mergeNewer_single_dup (st : VKMerger) (e : List Nat) (h : e ∈ st.merges) :
    mergeNewer st (marshalEncryptedIndexKey e) = .ok st := by
  have hm : st.merges ≠ [] := by intro hc; rw [hc] at h; simp at h
  unfold mergeNewer marshalEncryptedIndexKey
  rw [if_neg (fun hc => (by simp : ([e] : List (List Nat)) ≠ []) ((marshal_eq_nil_iff [e]).mp hc))]
  have he : existsIn st.merges e = true := (existsIn_eq_true_iff st.merges e).mpr h
  simp only [unmarshal_marshal, if_neg hm]
  simp [he]

theorem mergeOlder_single (st : VKMerger) (e : List Nat) (h : e ∉ st.merges) :
    mergeOlder st (marshalEncryptedIndexKey e) = .ok ⟨st.merges ++ [e], true⟩ := by
  unfold mergeOlder
  exact mergeNewer_single ⟨st.merges, true⟩ e h

theorem mergeOlder_single_dup (st : VKMerger) (e : List Nat) (h : e ∈ st.merges) :
    mergeOlder st (marshalEncryptedIndexKey e) = .ok ⟨st.merges, true⟩ := by
  unfold mergeOlder
  exact mergeNewer_single_dup ⟨st.merges, true⟩ e h

theorem mergeOlder_append (st : VKMerger) (es : List (List Nat))
    (hm : st.merges ≠ []) (hdisj : ∀ e ∈ es, e ∉ st.merges) (hnd : es.Nodup)
    (hne : es ≠ []) :
    mergeOlder st (marshalEncryptedIndexKeys es) = .ok ⟨st.merges ++ es, true⟩ := by
  unfold mergeOlder
  exact mergeNewer_append ⟨st.merges, true⟩ es hm hdisj hnd hne

theorem mergeOlderAll_singles (rs : List (List Nat)) :
    ∀ st : VKMerger, rs.Nodup → (∀ e ∈ rs, e ∉ st.merges) →
      mergeOlderAll st (rs.map marshalEncryptedIndexKey) =
        .ok ⟨st.merges ++ rs, st.reverse || !rs.isEmpty⟩ := by
  induction rs with
  | nil => intro st _ _; simp [mergeOlderAll]
  | cons r rest ih =>
    intro st hnd hdisj
    have hdisj' : ∀ e ∈ rest, e ∉ st.merges ++ [r] := by
      intro e he
      simp only [List.mem_append, List.mem_singleton]
      push_neg
      refine ⟨hdisj e (by simp [he]), ?_⟩
      intro hcontra
      exact (List.nodup_cons.mp hnd).1 (hcontra ▸ he)
    simp only [List.map_cons, mergeOlderAll]
    simp only [mergeOlder_single st r (hdisj r (by simp))]
    simp only [ih ⟨st.merges ++ [r], true⟩ (List.nodup_cons.mp hnd).2 hdisj']
    simp

theorem mergeOlderAll_replicate (e : List Nat) :
    ∀ (j : Nat) (r : Bool),
      mergeOlderAll ⟨[e], r⟩ (List.replicate j (marshalEncryptedIndexKey e)) =
        .ok ⟨[e], if j = 0 then r else true⟩ := by
  intro j
  induction j with
  | zero => intro r; simp [mergeOlderAll]
  | succ j ih =>
    intro r
    simp only [List.replicate_succ, mergeOlderAll]
    simp only [mergeOlder_single_dup ⟨[e], r⟩ e (by simp)]
    simp only [ih true]
    simp

theorem materializeMerge_distinct (evks : List (List Nat)) (hne : evks ≠ [])
    (hnd : evks.Nodup) :
    materializeMerge none (evks.map marshalEncryptedIndexKey) =
      .ok (marshalEncryptedIndexKeys evks) := by
  unfold materializeMerge
  rw [← List.map_reverse]
  cases hrev : evks.reverse with
  | nil => exact absurd (List.reverse_eq_nil_iff.mp hrev) hne
  | cons nwst rs =>
    have hrevnd : (nwst :: rs).Nodup := by
      rw [← hrev]; exact List.nodup_reverse.mpr hnd
    have hdisj : ∀ e ∈ rs, e ∉ [nwst] := by
      intro e he
      simp only [List.mem_singleton]
      intro hcontra
      exact (List.nodup_cons.mp hrevnd).1 (hcontra ▸ he)
    have hfin : finish ⟨nwst :: rs, false || !rs.isEmpty⟩ =
        marshalEncryptedIndexKeys evks := by
      unfold finish
      rw [if_neg (by simp)]
      cases rs with
      | nil =>
        have : evks = [nwst] := by
          rw [← List.reverse_reverse evks, hrev]; rfl
        simp [this]
      | cons r rest =>
        simp only [List.isEmpty_cons, Bool.not_false, Bool.or_true, if_true]
        rw [← hrev, List.reverse_reverse]
    simp only [List.map_cons]
    simp only [mergeNewer_single ⟨[], false⟩ nwst (by simp)]
    simp only [List.nil_append]
    simp only [mergeOlderAll_singles rs ⟨[nwst], false⟩ (List.nodup_cons.mp hrevnd).2 hdisj]
    simpa using hfin

theorem materializeMerge_replicate (e : List Nat) (k : Nat) (hk : 1 ≤ k) :
    materializeMerge none (List.replicate k (marshalEncryptedIndexKey e)) =
      .ok (marshalEncryptedIndexKeys [e]) := by
  cases k with
  | zero => omega
  | succ j =>
    unfold materializeMerge
    rw [List.reverse_replicate, List.replicate_succ]
    simp only [mergeNewer_single ⟨[], false⟩ e (by simp)]
    simp only [List.nil_append]
    simp only [mergeOlderAll_replicate e j false]
    unfold finish
    rw [if_neg (by simp)]
    split <;> simp

theorem valid_decode (mh : List Nat) (h : isValidDblMultihash mh = true) :
    ∃ d, decodeMultihash mh = .ok d ∧ d.code = dblSha2_256 := by
  unfold isValidDblMultihash at h
  cases hd : decodeMultihash mh with
  | error e => rw [hd] at h; simp at h
  | ok d =>
    rw [hd] at h
    exact ⟨d, rfl, by simpa using h⟩

theorem lexCompareBytes_self (a : List Nat) : lexCompareBytes a a = .eq := by
  induction a with
  | nil => rfl
  | cons x xs ih => simp [lexCompareBytes, ih]

theorem sortByKey_single (x : List Nat × List Nat) : sortByKey [x] = [x] := rfl

theorem sortByKey_pair_eqKey (mh v₁ v₂ : List Nat) :
    sortByKey [(mh, v₁), (mh, v₂)] = [(mh, v₁), (mh, v₂)] := by
  simp only [sortByKey, insertByKey]
  rw [lexCompareBytes_self]

theorem mergeIndexes_single (db : DB) (mh v : List Nat)
    (h : isValidDblMultihash mh = true) :
    mergeIndexes db [(mh, v)] =
      .ok (applyOp db (.mergeOp (multihashKey mh) (marshalEncryptedIndexKey v))) := by
  obtain ⟨d, hd, hc⟩ := valid_decode mh h
  unfold mergeIndexes
  rw [sortByKey_single]
  simp only [mergeIndexesLoop, hd, hc]
  simp [applyOps]

theorem mergeEach_eq (mh : List Nat) (h : isValidDblMultihash mh = true) :
    ∀ (evks : List (List Nat)) (db : DB),
      mergeEach db mh evks =
        .ok (evks.foldl
          (fun d v => applyOp d (.mergeOp (multihashKey mh) (marshalEncryptedIndexKey v)))
          db) := by
  intro evks
  induction evks with
  | nil => intro db; rfl
  | cons v vs ih =>
    intro db
    simp only [mergeEach, mergeIndexes_single db mh v h]
    rw [ih]
    simp

theorem foldl_mergeOp_ne (k : List Nat) (evks : List (List Nat)) :
    ∀ (db : DB) (k' : List Nat), k' ≠ k →
      (evks.foldl (fun d v => applyOp d (.mergeOp k (marshalEncryptedIndexKey v))) db) k' =
        db k' := by
  induction evks with
  | nil => intro db k' _; rfl
  | cons v vs ih =>
    intro db k' hne
    simp only [List.foldl_cons]
    rw [ih _ k' hne]
    simp [applyOp, if_neg hne]

theorem foldl_mergeOp_cell (k : List Nat) (evks : List (List Nat)) :
    ∀ (db : DB) (c : Cell), db k = some c →
      (evks.foldl (fun d v => applyOp d (.mergeOp k (marshalEncryptedIndexKey v))) db) k =
        some ⟨c.base, c.ops ++ evks.map marshalEncryptedIndexKey⟩ := by
  induction evks with
  | nil => intro db c hc; simpa using hc
  | cons v vs ih =>
    intro db c hc
    simp only [List.foldl_cons]
    have hstep : (applyOp db (.mergeOp k (marshalEncryptedIndexKey v))) k =
        some ⟨c.base, c.ops ++ [marshalEncryptedIndexKey v]⟩ := by
      simp [applyOp, hc]
    rw [ih _ _ hstep]
    simp

theorem foldl_mergeOp_absent (k : List Nat) (evks : List (List Nat)) (db : DB)
    (h : db k = none) (hne : evks ≠ []) :
    (evks.foldl (fun d v => applyOp d (.mergeOp k (marshalEncryptedIndexKey v))) db) k =
      some ⟨none, evks.map marshalEncryptedIndexKey⟩ := by
  cases evks with
  | nil => exact absurd rfl hne
  | cons v vs =>
    simp only [List.foldl_cons]
    have hstep : (applyOp db (.mergeOp k (marshalEncryptedIndexKey v))) k =
        some ⟨none, [marshalEncryptedIndexKey v]⟩ := by
      simp [applyOp, h]
    rw [foldl_mergeOp_cell k vs _ _ hstep]
    simp

theorem dbGet_absent (db : DB) (k : List Nat) (h : db k = none) :
    dbGet db k = .ok none := by
  simp [dbGet, h]

theorem dbGet_plain (db : DB) (k v : List Nat) (h : db k = some ⟨some v, []⟩) :
    dbGet db k = .ok (some v) := by
  simp [dbGet, h]

theorem dbGet_mergeCell (db : DB) (k : List Nat) (evks : List (List Nat))
    (h : db k = some ⟨none, evks.map marshalEncryptedIndexKey⟩)
    (hne : evks ≠ []) (hnd : evks.Nodup) :
    dbGet db k = .ok (some (marshalEncryptedIndexKeys evks)) := by
  unfold dbGet
  rw [h]
  cases hevks : evks with
  | nil => exact absurd hevks hne
  | cons e rest =>
    simp only [List.map_cons]
    have := materializeMerge_distinct evks hne hnd
    rw [hevks] at this
    simp only [List.map_cons] at this
    simp only [this]

theorem lookup_of_dbGet (db : DB) (mh : List Nat) (evks : List (List Nat))
    (hval : isValidDblMultihash mh = true)
    (hget : dbGet db (multihashKey mh) = .ok (some (marshalEncryptedIndexKeys evks))) :
    lookup db mh = .ok evks := by
  obtain ⟨d, hd, hc⟩ := valid_decode mh hval
  unfold lookup
  simp only [hd, hc]
  simp only [hget, unmarshal_marshal]
  simp

theorem lookup_absent (db : DB) (mh : List Nat)
    (hval : isValidDblMultihash mh = true)
    (h : db (multihashKey mh) = none) :
    lookup db mh = .ok [] := by
  obtain ⟨d, hd, hc⟩ := valid_decode mh hval
  unfold lookup
  simp only [hd, hc]
  simp only [dbGet_absent db _ h]
  simp

theorem materializeMerge_replicate_cons (e : List Nat) (j : Nat) :
    materializeMerge none
      (marshalEncryptedIndexKey e :: List.replicate j (marshalEncryptedIndexKey e)) =
      .ok (marshalEncryptedIndexKeys [e]) := by
  rw [← List.replicate_succ]
  exact materializeMerge_replicate e (j + 1) (by omega)

theorem runMergerCalls_distinct (cs : List (Bool × List Nat)) :
    ∀ st : VKMerger, (cs.map Prod.snd).Nodup →
      (∀ e ∈ cs.map Prod.snd, e ∉ st.merges) →
      runMergerCalls st (cs.map fun c => (c.1, marshalEncryptedIndexKey c.2)) =
        .ok ⟨st.merges ++ cs.map Prod.snd, st.reverse || cs.any Prod.fst⟩ := by
  induction cs with
  | nil => intro st _ _; simp [runMergerCalls]
  | cons c rest ih =>
    intro st hnd hdisj
    obtain ⟨d, e⟩ := c
    have he : e ∉ st.merges := hdisj e (by simp)
    have hdisj' : ∀ e' ∈ rest.map Prod.snd, e' ∉ st.merges ++ [e] := by
      intro e' he'
      simp only [List.mem_append, List.mem_singleton]
      push_neg
      refine ⟨hdisj e' (by simp [he']), ?_⟩
      intro hcontra
      simp only [List.map_cons] at hnd
      exact (List.nodup_cons.mp hnd).1 (hcontra ▸ he')
    have hnd' : (rest.map Prod.snd).Nodup := by
      simp only [List.map_cons] at hnd
      exact (List.nodup_cons.mp hnd).2
    simp only [List.map_cons, runMergerCalls]
    cases d with
    | true =>
      simp only [cond_true]
      simp only [mergeOlder_single st e he]
      simp only [ih ⟨st.merges ++ [e], true⟩ hnd' hdisj']
      simp
    | false =>
      simp only [cond_false]
      simp only [mergeNewer_single st e he]
      simp only [ih ⟨st.merges ++ [e], st.reverse⟩ hnd' hdisj']
      simp [Bool.or_assoc]

theorem deleteIndexes_single_set (db : DB) (mh v : List Nat)
    (stored remaining : List (List Nat))
    (hval : isValidDblMultihash mh = true)
    (hget : dbGet db (multihashKey mh) = .ok (some (marshalEncryptedIndexKeys stored)))
    (hrm : removeFirstEvk stored v = (remaining, true))
    (hremne : remaining ≠ []) :
    deleteIndexes db [(mh, v)] =
      .ok (applyOp db (.setOp (multihashKey mh) (marshalEncryptedIndexKeys remaining))) := by
  obtain ⟨d, hd, hc⟩ := valid_decode mh hval
  unfold deleteIndexes
  rw [sortByKey_single]
  simp only [deleteIndexesLoop, hd, hc]
  simp only [hget, unmarshal_marshal, hrm]
  rw [if_neg (by simp [hc]), if_neg hremne]
  simp only [cond_true, deleteIndexesLoop]
  simp [applyOps]

theorem deleteIndexes_single_del (db : DB) (mh v : List Nat)
    (stored : List (List Nat)) (flag : Bool)
    (hval : isValidDblMultihash mh = true)
    (hget : dbGet db (multihashKey mh) = .ok (some (marshalEncryptedIndexKeys stored)))
    (hrm : removeFirstEvk stored v = ([], flag)) :
    deleteIndexes db [(mh, v)] = .ok (applyOp db (.delOp (multihashKey mh))) := by
  obtain ⟨d, hd, hc⟩ := valid_decode mh hval
  unfold deleteIndexes
  rw [sortByKey_single]
  simp only [deleteIndexesLoop, hd, hc]
  simp only [hget, unmarshal_marshal, hrm]
  simp [deleteIndexesLoop, applyOps]

end Lemmas

section Claims

/-- Claim C10: the section framing codec round-trips — for every finite
sequence of byte slices, decoding the varint-length-prefixed concatenation
produced by encoding it yields exactly the same sequence, element for
element and in order. -/
theorem claim10_section_codec_roundtrip (xs : List (List Nat)) :
    unmarshalEncryptedIndexKeys (marshalEncryptedIndexKeys xs) = some xs :=
  unmarshal_marshal xs

/-- Claim C9: the empty value-keys value is never persisted — `Finish`
emits empty bytes exactly when the accumulated set is empty, and
`DeletableFinish` reports the deletion flag exactly when the emitted bytes
are empty, so an empty merge result is signalled as a physical key
deletion rather than stored as an empty value. -/
theorem claim9_empty_never_persisted (st : VKMerger) :
    ((deletableFinish st).2 = true ↔ (deletableFinish st).1 = []) ∧
    (finish st = [] ↔ st.merges = []) ∧
    (deletableFinish st).1 = finish st := by
  refine ⟨?_, ?_, rfl⟩
  · simp [deletableFinish, List.isEmpty_iff]
  · unfold finish
    by_cases h : st.merges = []
    · simp [h]
    · rw [if_neg h]
      have hsplit : (if st.reverse then st.merges.reverse else st.merges) = [] ↔
          st.merges = [] := by
        split <;> simp
      rw [marshal_eq_nil_iff, hsplit]

/-- Claim C1 (counterexample): the claim states that multihash keys carry
the tag byte `0x02`; in `key.go` the `iota` block assigns `1` to the
multihash tag, so the key of the one-byte multihash `0xAA` starts with
`0x01`, not `0x02`. -/
theorem claim1_counterexample :
    multihashKey [170] = [1, 170] ∧ (multihashKey [170]).head? ≠ some 2 := by
  refine ⟨rfl, by decide⟩

/-- Claim C1 (amended): the persisted key tag bytes are those of the
`iota` block in `key.go`: `0x00` is the unknown tag, a multihash key is
the tag byte `0x01` followed by the raw multihash bytes, and a
hashed-value-key key is the tag byte `0x02` followed by the 32-byte BLAKE3
digest of the key (33 bytes in total); no tag value is reserved. -/
theorem claim1_key_tags (mh hvk : List Nat) (blake3Sum : List Nat → List Nat)
    (hlen : (blake3Sum hvk).length = 32) :
    multihashKey mh = 1 :: mh ∧
    hashedValueKeyKey blake3Sum hvk = 2 :: blake3Sum hvk ∧
    (hashedValueKeyKey blake3Sum hvk).length = 33 ∧
    unknownKeyTag = 0 ∧ multihashKeyTag = 1 ∧ hashedValueKeyKeyTag = 2 := by
  refine ⟨rfl, rfl, ?_, rfl, rfl, rfl⟩
  simp [hashedValueKeyKey, hlen]

/-- Claim C1 (witness): the amended statement evaluated at the multihash
`[0xAA]`, the empty hashed value key, and a constant all-zero digest
function. -/
theorem claim1_key_tags_witness :
    ((fun _ : List Nat => List.replicate 32 0) []).length = 32 ∧
    (multihashKey [170] = 1 :: [170] ∧
     hashedValueKeyKey (fun _ => List.replicate 32 0) [] =
       2 :: (fun _ : List Nat => List.replicate 32 0) [] ∧
     (hashedValueKeyKey (fun _ => List.replicate 32 0) []).length = 33 ∧
     unknownKeyTag = 0 ∧ multihashKeyTag = 1 ∧ hashedValueKeyKeyTag = 2) :=
  ⟨by decide, claim1_key_tags [170] [] (fun _ => List.replicate 32 0) (by decide)⟩

/-- Claim C2 (counterexample): the claim states that a multihash that
decodes with a digest length other than 32 is rejected before touching the
backend; but the store only checks that decoding succeeds and that the
code is `DBL_SHA2_256` (0x56). The multihash `0x56 0x02 0xAA 0xBB`
decodes with code `DBL_SHA2_256` and a 2-byte digest, and
`merge_indexes` accepts it and commits: a subsequent `lookup` returns the
merged value, whereas the store was empty before. -/
theorem claim2_counterexample :
    decodeMultihash [86, 2, 170, 187] = .ok ⟨86, [170, 187]⟩ ∧
    dblSha2_256 = 86 ∧
    isValidDblMultihash [86, 2, 170, 187] = true ∧
    lookup emptyDB [86, 2, 170, 187] = .ok [] ∧
    (mergeIndexes emptyDB [([86, 2, 170, 187], [101])]).bind
      (fun db => lookup db [86, 2, 170, 187]) = .ok [[101]] :=
  ⟨rfl, rfl, rfl, rfl, rfl⟩

/-- Claim C2 (amended): for every multihash that fails to decode or
decodes with a multicodec code other than `DBL_SHA2_256`, both
`merge_indexes([(mh, v)])` and `lookup(mh)` fail with the corresponding
invalid-multihash error (decode error or unsupported-multicodec error)
before any backend write, and the store is left unchanged (the batch is
never committed, so the call returns no new state). The digest length is
not validated. -/
theorem claim2_invalid_multihash_rejected (db : DB) (mh v : List Nat)
    (h : isValidDblMultihash mh = false) :
    ∃ e, (e = DHError.multihashDecode ∨ e = DHError.unsupportedMulticodecCode) ∧
      mergeIndexes db [(mh, v)] = .error e ∧ lookup db mh = .error e := by
  unfold isValidDblMultihash at h
  cases hd : decodeMultihash mh with
  | error e0 =>
    refine ⟨.multihashDecode, Or.inl rfl, ?_, ?_⟩
    · unfold mergeIndexes
      rw [sortByKey_single]
      simp [mergeIndexesLoop, hd]
    · unfold lookup
      simp [hd]
  | ok d =>
    rw [hd] at h
    have hcode : d.code ≠ dblSha2_256 := by simpa using h
    refine ⟨.unsupportedMulticodecCode, Or.inr rfl, ?_, ?_⟩
    · unfold mergeIndexes
      rw [sortByKey_single]
      simp [mergeIndexesLoop, hd, hcode]
    · unfold lookup
      simp [hd, hcode]

/-- Claim C2 (witness): the amended statement evaluated on the raw bytes
of the string "lobster", which fail to decode as a multihash, against the
empty store. -/
theorem claim2_invalid_multihash_rejected_witness :
    isValidDblMultihash [108, 111, 98, 115, 116, 101, 114] = false ∧
    (∃ e, (e = DHError.multihashDecode ∨ e = DHError.unsupportedMulticodecCode) ∧
      mergeIndexes emptyDB [([108, 111, 98, 115, 116, 101, 114], [102])] = .error e ∧
      lookup emptyDB [108, 111, 98, 115, 116, 101, 114] = .error e) :=
  ⟨by decide,
   claim2_invalid_multihash_rejected emptyDB [108, 111, 98, 115, 116, 101, 114] [102]
     (by decide)⟩

/-- Claim C3: for every valid multihash and every sequence of
pairwise-distinct encrypted value keys, merging them one call at a time
onto an initially absent multihash and then looking the multihash up
returns exactly that sequence, in order. -/
theorem claim3_merge_lookup_roundtrip (db : DB) (mh : List Nat)
    (evks : List (List Nat))
    (hval : isValidDblMultihash mh = true)
    (habs : db (multihashKey mh) = none)
    (hnd : evks.Nodup) :
    (mergeEach db mh evks).bind (fun db2 => lookup db2 mh) = .ok evks := by
  rw [mergeEach_eq mh hval evks db]
  simp only [Except.bind]
  by_cases hevks : evks = []
  · subst hevks
    simpa using lookup_absent db mh hval habs
  · have hcell := foldl_mergeOp_absent (multihashKey mh) evks db habs hevks
    exact lookup_of_dbGet _ mh evks hval
      (dbGet_mergeCell _ (multihashKey mh) evks hcell hevks hnd)

/-- Claim C3 (witness): three distinct one-byte encrypted value keys
merged in order under the sample multihash on the empty store. -/
theorem claim3_merge_lookup_roundtrip_witness :
    isValidDblMultihash sampleDblMh = true ∧
    emptyDB (multihashKey sampleDblMh) = none ∧
    ([[101], [102], [103]] : List (List Nat)).Nodup ∧
    (mergeEach emptyDB sampleDblMh [[101], [102], [103]]).bind
      (fun db2 => lookup db2 sampleDblMh) = .ok [[101], [102], [103]] :=
  ⟨by decide, rfl, by decide,
   claim3_merge_lookup_roundtrip emptyDB sampleDblMh [[101], [102], [103]]
     (by decide) rfl (by decide)⟩

/-- Claim C7: merge is idempotent — merging the same multihash-key pair
any number of times (at least once) onto an initially absent multihash
leaves exactly the one-element stored set, and lookup returns exactly that
one key, independently of the repetition count. -/
theorem claim7_merge_idempotent (db : DB) (mh evk : List Nat) (k : Nat)
    (hval : isValidDblMultihash mh = true)
    (habs : db (multihashKey mh) = none)
    (hk : 1 ≤ k) :
    (mergeEach db mh (List.replicate k evk)).bind (fun db2 => lookup db2 mh) =
      .ok [evk] := by
  rw [mergeEach_eq mh hval]
  simp only [Except.bind]
  have hne : List.replicate k evk ≠ [] := by
    intro hc
    have := congrArg List.length hc
    simp at this
    omega
  have hcell := foldl_mergeOp_absent (multihashKey mh) (List.replicate k evk) db habs hne
  apply lookup_of_dbGet _ mh [evk] hval
  unfold dbGet
  rw [hcell]
  simp only [List.map_replicate]
  cases k with
  | zero => omega
  | succ j =>
    rw [List.replicate_succ]
    simp only [materializeMerge_replicate_cons evk j]

/-- Claim C7 (witness): the same one-byte key merged three times under the
sample multihash on the empty store. -/
theorem claim7_merge_idempotent_witness :
    isValidDblMultihash sampleDblMh = true ∧
    emptyDB (multihashKey sampleDblMh) = none ∧
    1 ≤ 3 ∧
    (mergeEach emptyDB sampleDblMh (List.replicate 3 [101])).bind
      (fun db2 => lookup db2 sampleDblMh) = .ok [[101]] :=
  ⟨by decide, rfl, by decide,
   claim7_merge_idempotent emptyDB sampleDblMh [101] 3 (by decide) rfl (by decide)⟩

/-- Claim C5 (counterexample): the claim states that after mixed-order
merger invocations every `MergeOlder` contribution precedes every
`MergeNewer` contribution in the bytes emitted by `Finish`. Running the
merger with `Merge` seeding `[101]` (a `MergeNewer` contribution), then
`MergeOlder` of `[102]`, then `MergeNewer` of `[103]`, `Finish` emits the
keys in the order `[103], [102], [101]`: the `MergeNewer` contribution
`[103]` precedes the `MergeOlder` contribution `[102]`, refuting the
claim. -/
theorem claim5_counterexample :
    (runMergerCalls ⟨[], false⟩
      [(false, marshalEncryptedIndexKey [101]),
       (true, marshalEncryptedIndexKey [102]),
       (false, marshalEncryptedIndexKey [103])]).map
        (fun st => unmarshalEncryptedIndexKeys (finish st)) =
      .ok (some [[103], [102], [101]]) ∧
    ([[103], [102], [101]] : List (List Nat)).indexOf [103] <
      ([[103], [102], [101]] : List (List Nat)).indexOf [102] :=
  ⟨rfl, by decide⟩

/-- Claim C5 (amended): once any `MergeOlder` call has occurred, the
reverse flag is set and never cleared, and `Finish` applies a single final
reversal; hence for any sequence of merger invocations with distinct
single-key payloads containing at least one `MergeOlder`, the bytes
emitted by `Finish` list the accumulated keys in reverse accumulation
order — so a `MergeOlder` contribution precedes exactly those `MergeNewer`
contributions that were accumulated before it, and oldest-first order is
guaranteed only when no `MergeNewer` call follows a `MergeOlder`. -/
theorem claim5_finish_reverse_order (cs : List (Bool × List Nat))
    (hnd : (cs.map Prod.snd).Nodup)
    (holder : cs.any Prod.fst = true) :
    (runMergerCalls ⟨[], false⟩
      (cs.map fun c => (c.1, marshalEncryptedIndexKey c.2))).map finish =
      .ok (marshalEncryptedIndexKeys (cs.map Prod.snd).reverse) := by
  rw [runMergerCalls_distinct cs ⟨[], false⟩ hnd (by simp)]
  have hne : cs.map Prod.snd ≠ [] := by
    intro hc
    rw [List.map_eq_nil_iff] at hc
    subst hc
    simp at holder
  simp only [Except.map]
  unfold finish
  rw [if_neg (by simpa using hne)]
  simp [holder]

/-- Claim C5 (witness): the amended statement at a `MergeNewer` of `[101]`
followed by a `MergeOlder` of `[102]`. -/
theorem claim5_finish_reverse_order_witness :
    (([(false, [101]), (true, [102])] : List (Bool × List Nat)).map Prod.snd).Nodup ∧
    ([(false, [101]), (true, [102])] : List (Bool × List Nat)).any Prod.fst = true ∧
    (runMergerCalls ⟨[], false⟩
      (([(false, [101]), (true, [102])] : List (Bool × List Nat)).map
        fun c => (c.1, marshalEncryptedIndexKey c.2))).map finish =
      .ok (marshalEncryptedIndexKeys
        (([(false, [101]), (true, [102])] : List (Bool × List Nat)).map Prod.snd).reverse) :=
  ⟨by decide, by decide,
   claim5_finish_reverse_order [(false, [101]), (true, [102])] (by decide) (by decide)⟩

/-- Claim C4: for a valid multihash holding exactly the two distinct keys
v₁ then v₂, deleting v₁ leaves lookup returning exactly `[v₂]`, and after
the last remaining key is also deleted, lookup returns the empty result
(the key is physically deleted rather than an empty value stored). -/
theorem claim4_delete_indexes (db : DB) (mh v₁ v₂ : List Nat)
    (hval : isValidDblMultihash mh = true)
    (habs : db (multihashKey mh) = none)
    (hne : v₁ ≠ v₂) :
    ((mergeEach db mh [v₁, v₂]).bind fun db1 =>
      (deleteIndexes db1 [(mh, v₁)]).bind fun db2 => lookup db2 mh) = .ok [v₂] ∧
    ((mergeEach db mh [v₁, v₂]).bind fun db1 =>
      (deleteIndexes db1 [(mh, v₁)]).bind fun db2 =>
        (deleteIndexes db2 [(mh, v₂)]).bind fun db3 => lookup db3 mh) = .ok [] := by
  have hnd : ([v₁, v₂] : List (List Nat)).Nodup := by simp [hne]
  obtain ⟨db1, hdb1, hget1⟩ : ∃ db1, mergeEach db mh [v₁, v₂] = .ok db1 ∧
      dbGet db1 (multihashKey mh) =
        .ok (some (marshalEncryptedIndexKeys [v₁, v₂])) := by
    refine ⟨_, mergeEach_eq mh hval [v₁, v₂] db, ?_⟩
    exact dbGet_mergeCell _ _ [v₁, v₂]
      (foldl_mergeOp_absent _ [v₁, v₂] db habs (by simp)) (by simp) hnd
  obtain ⟨db2, hdb2, hget2⟩ : ∃ db2, deleteIndexes db1 [(mh, v₁)] = .ok db2 ∧
      dbGet db2 (multihashKey mh) =
        .ok (some (marshalEncryptedIndexKeys [v₂])) := by
    refine ⟨_, deleteIndexes_single_set db1 mh v₁ [v₁, v₂] [v₂] hval hget1
      (by simp [removeFirstEvk]) (by simp), ?_⟩
    exact dbGet_plain _ _ _ (by simp [applyOp])
  obtain ⟨db3, hdb3, habs3⟩ : ∃ db3, deleteIndexes db2 [(mh, v₂)] = .ok db3 ∧
      db3 (multihashKey mh) = none := by
    refine ⟨_, deleteIndexes_single_del db2 mh v₂ [v₂] true hval hget2
      (by simp [removeFirstEvk]), ?_⟩
    simp [applyOp]
  constructor
  · rw [hdb1]
    simp only [Except.bind]
    rw [hdb2]
    simp only [Except.bind]
    exact lookup_of_dbGet db2 mh [v₂] hval hget2
  · rw [hdb1]
    simp only [Except.bind]
    rw [hdb2]
    simp only [Except.bind]
    rw [hdb3]
    simp only [Except.bind]
    exact lookup_absent db3 mh hval habs3

/-- Claim C4 (witness): the two distinct one-byte keys `[101]` and
`[102]` under the sample multihash on the empty store. -/
theorem claim4_delete_indexes_witness :
    isValidDblMultihash sampleDblMh = true ∧
    emptyDB (multihashKey sampleDblMh) = none ∧
    ([101] : List Nat) ≠ [102] ∧
    (((mergeEach emptyDB sampleDblMh [[101], [102]]).bind fun db1 =>
      (deleteIndexes db1 [(sampleDblMh, [101])]).bind fun db2 =>
        lookup db2 sampleDblMh) = .ok [[102]] ∧
     ((mergeEach emptyDB sampleDblMh [[101], [102]]).bind fun db1 =>
      (deleteIndexes db1 [(sampleDblMh, [101])]).bind fun db2 =>
        (deleteIndexes db2 [(sampleDblMh, [102])]).bind fun db3 =>
          lookup db3 sampleDblMh) = .ok []) :=
  ⟨by decide, rfl, by decide,
   claim4_delete_indexes emptyDB sampleDblMh [101] [102] (by decide) rfl (by decide)⟩

/-- Claim C8: within a single `delete_indexes` call containing the pairs
`(mh, v₁)` and `(mh, v₂)` for a multihash whose stored set is exactly
`{v₁, v₂}`, each pair's point read observes the set as stored before the
call (the read goes to the committed state, not the call's own pending
batch), so after commit the lookup returns a one-element list containing
one of the two values — the key does not become absent. -/
theorem claim8_delete_reads_precall_state (db : DB) (mh v₁ v₂ : List Nat)
    (hval : isValidDblMultihash mh = true)
    (habs : db (multihashKey mh) = none)
    (hne : v₁ ≠ v₂) :
    ∃ w, (w = v₁ ∨ w = v₂) ∧
      ((mergeEach db mh [v₁, v₂]).bind fun db1 =>
        (deleteIndexes db1 [(mh, v₁), (mh, v₂)]).bind fun db2 =>
          lookup db2 mh) = .ok [w] := by
  refine ⟨v₁, Or.inl rfl, ?_⟩
  have hnd : ([v₁, v₂] : List (List Nat)).Nodup := by simp [hne]
  obtain ⟨d, hd, hc⟩ := valid_decode mh hval
  obtain ⟨db1, hdb1, hget1⟩ : ∃ db1, mergeEach db mh [v₁, v₂] = .ok db1 ∧
      dbGet db1 (multihashKey mh) =
        .ok (some (marshalEncryptedIndexKeys [v₁, v₂])) := by
    refine ⟨_, mergeEach_eq mh hval [v₁, v₂] db, ?_⟩
    exact dbGet_mergeCell _ _ [v₁, v₂]
      (foldl_mergeOp_absent _ [v₁, v₂] db habs (by simp)) (by simp) hnd
  have hrm1 : removeFirstEvk [v₁, v₂] v₁ = ([v₂], true) := by
    simp [removeFirstEvk]
  have hrm2 : removeFirstEvk [v₁, v₂] v₂ = ([v₁], true) := by
    simp [removeFirstEvk, hne]
  have hdel : deleteIndexes db1 [(mh, v₁), (mh, v₂)] =
      .ok (applyOp
        (applyOp db1 (.setOp (multihashKey mh) (marshalEncryptedIndexKeys [v₂])))
        (.setOp (multihashKey mh) (marshalEncryptedIndexKeys [v₁]))) := by
    unfold deleteIndexes
    rw [sortByKey_pair_eqKey]
    simp only [deleteIndexesLoop, hd, hc]
    simp only [hget1, unmarshal_marshal, hrm1, hrm2]
    simp [applyOps]
  rw [hdb1]
  simp only [Except.bind]
  rw [hdel]
  simp only [Except.bind]
  exact lookup_of_dbGet _ mh [v₁] hval (dbGet_plain _ _ _ (by simp [applyOp]))

/-- Claim C8 (witness): the two distinct one-byte keys `[101]` and
`[102]`, both deleted in one call, under the sample multihash on the
empty store. -/
theorem claim8_delete_reads_precall_state_witness :
    isValidDblMultihash sampleDblMh = true ∧
    emptyDB (multihashKey sampleDblMh) = none ∧
    ([101] : List Nat) ≠ [102] ∧
    (∃ w, (w = [101] ∨ w = [102]) ∧
      ((mergeEach emptyDB sampleDblMh [[101], [102]]).bind fun db1 =>
        (deleteIndexes db1 [(sampleDblMh, [101]), (sampleDblMh, [102])]).bind fun db2 =>
          lookup db2 sampleDblMh) = .ok [w]) :=
  ⟨by decide, rfl, by decide,
   claim8_delete_reads_precall_state emptyDB sampleDblMh [101] [102]
     (by decide) rfl (by decide)⟩

/-- Claim C6 (counterexample): the claim states that the final lookup is
the same whether the backend combines three single-key merge operands as
`(a⊕b)⊕c` or as `a⊕(b⊕c)`. Combining in the backend's newest-first
direction (the older operand supplied through `MergeOlder`, as on the read
path) with a = `[101]`, b = `[102]`, c = `[103]`, the two groupings
produce different values, and lookups over stores holding those values
return different lists: `[[102],[101],[103]]` against
`[[101],[103],[102]]`. -/
theorem claim6_counterexample :
    ((combineNewestFirst (marshalEncryptedIndexKey [101])
        (marshalEncryptedIndexKey [102])).bind fun x =>
      combineNewestFirst x (marshalEncryptedIndexKey [103])) =
      .ok [1, 102, 1, 101, 1, 103] ∧
    ((combineNewestFirst (marshalEncryptedIndexKey [102])
        (marshalEncryptedIndexKey [103])).bind fun x =>
      combineNewestFirst (marshalEncryptedIndexKey [101]) x) =
      .ok [1, 101, 1, 103, 1, 102] ∧
    lookup (singlePlainDB (multihashKey sampleDblMh) [1, 102, 1, 101, 1, 103])
      sampleDblMh = .ok [[102], [101], [103]] ∧
    lookup (singlePlainDB (multihashKey sampleDblMh) [1, 101, 1, 103, 1, 102])
      sampleDblMh = .ok [[101], [103], [102]] ∧
    ([[102], [101], [103]] : List (List Nat)) ≠ [[101], [103], [102]] :=
  ⟨rfl, rfl, rfl, rfl, by decide⟩

/-- Claim C6 (amended): for three pairwise-distinct encrypted value keys
and a valid multihash, the two groupings agree on the nose when the
operands are combined oldest-first (each later operand supplied through
`MergeNewer`), both producing the value `[a, b, c]`; under the backend's
newest-first combination (older operand through `MergeOlder`) the two
groupings produce the orders `[b, a, c]` and `[a, c, b]` respectively,
which are permutations of each other (the same set of keys) but not equal,
and lookup over a store holding either value returns the respective
order. -/
theorem claim6_merge_grouping (mh a b c : List Nat)
    (hval : isValidDblMultihash mh = true)
    (hab : a ≠ b) (hac : a ≠ c) (hbc : b ≠ c) :
    ((combineOldestFirst (marshalEncryptedIndexKey a)
        (marshalEncryptedIndexKey b)).bind fun x =>
      combineOldestFirst x (marshalEncryptedIndexKey c)) =
      .ok (marshalEncryptedIndexKeys [a, b, c]) ∧
    ((combineOldestFirst (marshalEncryptedIndexKey b)
        (marshalEncryptedIndexKey c)).bind fun x =>
      combineOldestFirst (marshalEncryptedIndexKey a) x) =
      .ok (marshalEncryptedIndexKeys [a, b, c]) ∧
    ((combineNewestFirst (marshalEncryptedIndexKey a)
        (marshalEncryptedIndexKey b)).bind fun x =>
      combineNewestFirst x (marshalEncryptedIndexKey c)) =
      .ok (marshalEncryptedIndexKeys [b, a, c]) ∧
    ((combineNewestFirst (marshalEncryptedIndexKey b)
        (marshalEncryptedIndexKey c)).bind fun x =>
      combineNewestFirst (marshalEncryptedIndexKey a) x) =
      .ok (marshalEncryptedIndexKeys [a, c, b]) ∧
    ([b, a, c] : List (List Nat)).Perm [a, c, b] ∧
    lookup (singlePlainDB (multihashKey mh) (marshalEncryptedIndexKeys [b, a, c]))
      mh = .ok [b, a, c] ∧
    lookup (singlePlainDB (multihashKey mh) (marshalEncryptedIndexKeys [a, c, b]))
      mh = .ok [a, c, b] := by
  have hOab : combineOldestFirst (marshalEncryptedIndexKey a)
      (marshalEncryptedIndexKey b) = .ok (marshalEncryptedIndexKeys [a, b]) := by
    unfold combineOldestFirst
    simp only [mergeNewer_single ⟨[], false⟩ a (by simp), List.nil_append]
    simp only [mergeNewer_single ⟨[a], false⟩ b (by simp [Ne.symm hab])]
    unfold finish
    rw [if_neg (by simp)]
    simp
  have hOab_c : combineOldestFirst (marshalEncryptedIndexKeys [a, b])
      (marshalEncryptedIndexKey c) = .ok (marshalEncryptedIndexKeys [a, b, c]) := by
    unfold combineOldestFirst
    simp only [mergeNewer_wholesale false [a, b] (by simp)]
    simp only [mergeNewer_single ⟨[a, b], false⟩ c (by simp [Ne.symm hac, Ne.symm hbc])]
    unfold finish
    rw [if_neg (by simp)]
    simp
  have hObc : combineOldestFirst (marshalEncryptedIndexKey b)
      (marshalEncryptedIndexKey c) = .ok (marshalEncryptedIndexKeys [b, c]) := by
    unfold combineOldestFirst
    simp only [mergeNewer_single ⟨[], false⟩ b (by simp), List.nil_append]
    simp only [mergeNewer_single ⟨[b], false⟩ c (by simp [Ne.symm hbc])]
    unfold finish
    rw [if_neg (by simp)]
    simp
  have hOa_bc : combineOldestFirst (marshalEncryptedIndexKey a)
      (marshalEncryptedIndexKeys [b, c]) = .ok (marshalEncryptedIndexKeys [a, b, c]) := by
    unfold combineOldestFirst
    simp only [mergeNewer_single ⟨[], false⟩ a (by simp), List.nil_append]
    simp only [mergeNewer_append ⟨[a], false⟩ [b, c] (by simp)
      (by simp [Ne.symm hab, Ne.symm hac]) (by simp [hbc]) (by simp)]
    unfold finish
    rw [if_neg (by simp)]
    simp
  have hNab : combineNewestFirst (marshalEncryptedIndexKey a)
      (marshalEncryptedIndexKey b) = .ok (marshalEncryptedIndexKeys [a, b]) := by
    unfold combineNewestFirst
    simp only [mergeNewer_single ⟨[], false⟩ b (by simp), List.nil_append]
    simp only [mergeOlder_single ⟨[b], false⟩ a (by simp [hab])]
    unfold finish
    rw [if_neg (by simp)]
    simp
  have hNab_c : combineNewestFirst (marshalEncryptedIndexKeys [a, b])
      (marshalEncryptedIndexKey c) = .ok (marshalEncryptedIndexKeys [b, a, c]) := by
    unfold combineNewestFirst
    simp only [mergeNewer_single ⟨[], false⟩ c (by simp), List.nil_append]
    simp only [mergeOlder_append ⟨[c], false⟩ [a, b] (by simp)
      (by simp [hac, hbc]) (by simp [hab]) (by simp)]
    unfold finish
    rw [if_neg (by simp)]
    simp
  have hNbc : combineNewestFirst (marshalEncryptedIndexKey b)
      (marshalEncryptedIndexKey c) = .ok (marshalEncryptedIndexKeys [b, c]) := by
    unfold combineNewestFirst
    simp only [mergeNewer_single ⟨[], false⟩ c (by simp), List.nil_append]
    simp only [mergeOlder_single ⟨[c], false⟩ b (by simp [hbc])]
    unfold finish
    rw [if_neg (by simp)]
    simp
  have hNa_bc : combineNewestFirst (marshalEncryptedIndexKey a)
      (marshalEncryptedIndexKeys [b, c]) = .ok (marshalEncryptedIndexKeys [a, c, b]) := by
    unfold combineNewestFirst
    simp only [mergeNewer_wholesale false [b, c] (by simp)]
    simp only [mergeOlder_single ⟨[b, c], false⟩ a (by simp [hab, hac])]
    unfold finish
    rw [if_neg (by simp)]
    simp
  refine ⟨?_, ?_, ?_, ?_, ?_, ?_, ?_⟩
  · rw [hOab]
    simp only [Except.bind]
    exact hOab_c
  · rw [hObc]
    simp only [Except.bind]
    exact hOa_bc
  · rw [hNab]
    simp only [Except.bind]
    exact hNab_c
  · rw [hNbc]
    simp only [Except.bind]
    exact hNa_bc
  · exact (List.Perm.swap a b [c]).trans ((List.Perm.swap c b []).cons a)
  · exact lookup_of_dbGet _ mh [b, a, c] hval
      (dbGet_plain _ _ _ (by simp [singlePlainDB]))
  · exact lookup_of_dbGet _ mh [a, c, b] hval
      (dbGet_plain _ _ _ (by simp [singlePlainDB]))

/-- Claim C6 (witness): the amended statement at the three distinct
one-byte keys `[101]`, `[102]`, `[103]` and the sample multihash. -/
theorem claim6_merge_grouping_witness :
    isValidDblMultihash sampleDblMh = true ∧
    ([101] : List Nat) ≠ [102] ∧ ([101] : List Nat) ≠ [103] ∧
    ([102] : List Nat) ≠ [103] ∧
    ((combineOldestFirst (marshalEncryptedIndexKey [101])
        (marshalEncryptedIndexKey [102])).bind fun x =>
      combineOldestFirst x (marshalEncryptedIndexKey [103])) =
      .ok (marshalEncryptedIndexKeys [[101], [102], [103]]) :=
  ⟨by decide, by decide, by decide, by decide,
   (claim6_merge_grouping sampleDblMh [101] [102] [103]
     (by decide) (by decide) (by decide) (by decide)).1⟩

end Claims

end Dhstore
